import Mathlib

/-!
Shallow embedding of the disk-usage aggregation engine
(`src/disk-usage-clone/src/entry.rs` and `src/disk-usage-clone/src/traversal.rs`)
together with proofs of the testable properties and invariants claimed by the
specification.

Modelling conventions:
- Rust `PathBuf` is modelled as a list of path components (`List String`);
  `Path::parent` becomes `parentPath` (drop the last component, `none` for the
  empty path).
- `u64` sizes are modelled as `Nat`: the only arithmetic performed on sizes is
  addition of file sizes, where 64-bit overflow is immaterial.
- Rust `HashMap<PathBuf, Vec<DiskEntry>>` is modelled as an association list
  with unique keys; `build_tree` only uses `remove` and `entry().or_default()
  .push()`, both of which are modelled exactly.
- Rust stable sorting (`sort_by` / `sort_by_key`) is modelled by a stable
  insertion sort with the same comparator; a stable sort's output is uniquely
  determined by the comparator, so the model agrees with the Rust result.
- The filesystem-facing functions `traverse` and `traverse_parallel` are
  embedded as functions of the outcomes of their I/O boundary: the result of
  canonicalizing the root path and the list of walk results (each walk item is
  either a successfully read directory entry, with the outcome of its later
  `metadata()` call, or a read error).  `rayon`'s indexed `par_iter().collect()`
  preserves order, so the parallel metadata phase is an order-preserving map.
-/

/-- Model of `EntryType` (entry.rs): the kind of a filesystem entry. -/
inductive EntryType where
  | file
  | directory
  | symlink
  | other
deriving DecidableEq, Repr

/-- Model of `SortOrder` (entry.rs): how children are ordered by `sort_entries`. -/
inductive SortOrder where
  | none
  | sizeAscending
  | sizeDescending
  | name
deriving DecidableEq, Repr

/-- Model of `DiskEntry` (entry.rs): a node of the disk-usage tree.  The Rust
struct has fields `path`, `size_bytes`, `entry_type`, `depth`, `children`. -/
inductive DiskEntry where
  | mk (path : List String) (size_bytes : Nat) (entry_type : EntryType)
       (depth : Nat) (children : List DiskEntry) : DiskEntry
deriving Repr

/-- Field accessor for `DiskEntry.path`. -/
def DiskEntry.path : DiskEntry → List String
  | .mk p _ _ _ _ => p

/-- Field accessor for `DiskEntry.size_bytes`. -/
def DiskEntry.size_bytes : DiskEntry → Nat
  | .mk _ s _ _ _ => s

/-- Field accessor for `DiskEntry.entry_type`. -/
def DiskEntry.entry_type : DiskEntry → EntryType
  | .mk _ _ t _ _ => t

/-- Field accessor for `DiskEntry.depth`. -/
def DiskEntry.depth : DiskEntry → Nat
  | .mk _ _ _ d _ => d

/-- Field accessor for `DiskEntry.children`. -/
def DiskEntry.children : DiskEntry → List DiskEntry
  | .mk _ _ _ _ cs => cs

mutual
/-- Model of `DiskEntry::total_size` (entry.rs:306-314): own size for a leaf,
own size plus the sum of the children's total sizes otherwise. -/
def DiskEntry.total_size : DiskEntry → Nat
  | .mk _ s _ _ cs => if cs.isEmpty then s else s + totalSizeList cs

/-- Sum of `total_size` over a list of children (the `iter().map(..).sum()`
of entry.rs:312). -/
def totalSizeList : List DiskEntry → Nat
  | [] => 0
  | c :: cs => c.total_size + totalSizeList cs
end

mutual
/-- Model of `DiskEntry::collapse_recursive` (entry.rs:385-398): at or past
`max_depth` replace `size_bytes` by the current `total_size` and clear the
children; below `max_depth` recurse into the children. -/
def DiskEntry.collapse_recursive : DiskEntry → Nat → Nat → DiskEntry
  | .mk p s t d cs, current_depth, max_depth =>
    if current_depth ≥ max_depth then
      .mk p (DiskEntry.total_size (.mk p s t d cs)) t d []
    else
      .mk p s t d (collapseList cs (current_depth + 1) max_depth)

/-- Pointwise `collapse_recursive` over a children list (the `for child in
&mut self.children` loop of entry.rs:394-396). -/
def collapseList : List DiskEntry → Nat → Nat → List DiskEntry
  | [], _, _ => []
  | c :: cs, current_depth, max_depth =>
    c.collapse_recursive current_depth max_depth :: collapseList cs current_depth max_depth
end

/-- Model of `DiskEntry::collapse_to_depth` (entry.rs:373-375). -/
def DiskEntry.collapse_to_depth (e : DiskEntry) (max_depth : Nat) : DiskEntry :=
  e.collapse_recursive 0 max_depth

/-- Stable insertion of `e` into `l`: `e` is placed before the first element
`x` with `lt x e = false` (i.e. before every element that does not strictly
precede it). -/
def insertByLt {α : Type} (lt : α → α → Bool) (e : α) : List α → List α
  | [] => [e]
  | x :: xs => if lt x e then x :: insertByLt lt e xs else e :: x :: xs

/-- Stable insertion sort with strict-precedence comparator `lt`.  A stable
sort's output is uniquely determined by the comparator, so this models Rust's
stable `sort_by`/`sort_by_key` exactly. -/
def sortByLt {α : Type} (lt : α → α → Bool) : List α → List α
  | [] => []
  | x :: xs => insertByLt lt x (sortByLt lt xs)

/-- Comparator for `sort_by_key(|e| Reverse(key e))`: `a` strictly precedes
`b` when `key b < key a`. -/
def keyDescLt {α : Type} (key : α → Nat) (a b : α) : Bool :=
  decide (key b < key a)

/-- Comparator for `sort_by_key(|e| key e)`: `a` strictly precedes `b` when
`key a < key b`. -/
def keyAscLt {α : Type} (key : α → Nat) (a b : α) : Bool :=
  decide (key a < key b)

/-- Lexicographic strict order on component lists, modelling `PathBuf::cmp`
(component-wise comparison). -/
def listStrLt : List String → List String → Bool
  | [], [] => false
  | [], _ :: _ => true
  | _ :: _, [] => false
  | a :: as, b :: bs => if a < b then true else if b < a then false else listStrLt as bs

mutual
/-- Model of `DiskEntry::sort_entries` (entry.rs:455-480): first recursively
sort all descendants, then sort this node's children with the selected
comparator (`sort_by_key(total_size)`, `sort_by_key(Reverse(total_size))`, or
`sort_by(path cmp)`). -/
def DiskEntry.sort_entries : DiskEntry → SortOrder → DiskEntry
  | .mk p s t d cs, order =>
    let rec_sorted := sortChildren cs order
    match order with
    | SortOrder.none => .mk p s t d rec_sorted
    | SortOrder.sizeAscending =>
        .mk p s t d (sortByLt (keyAscLt DiskEntry.total_size) rec_sorted)
    | SortOrder.sizeDescending =>
        .mk p s t d (sortByLt (keyDescLt DiskEntry.total_size) rec_sorted)
    | SortOrder.name =>
        .mk p s t d (sortByLt (fun a b => listStrLt a.path b.path) rec_sorted)

/-- Pointwise `sort_entries` over a children list (the `for child in &mut
self.children` loop of entry.rs:457-459). -/
def sortChildren : List DiskEntry → SortOrder → List DiskEntry
  | [], _ => []
  | c :: cs, order => c.sort_entries order :: sortChildren cs order
end

mutual
/-- Number of nodes of a tree (root plus all descendants). -/
def countNodes : DiskEntry → Nat
  | .mk _ _ _ _ cs => 1 + countNodesList cs

/-- Number of nodes of a list of trees. -/
def countNodesList : List DiskEntry → Nat
  | [] => 0
  | c :: cs => countNodes c + countNodesList cs
end

mutual
/-- Number of nodes of a tree whose `depth` field is `0`. -/
def countDepthZero : DiskEntry → Nat
  | .mk _ _ _ d cs => (if d = 0 then 1 else 0) + countDepthZeroList cs

/-- Number of nodes with `depth = 0` in a list of trees. -/
def countDepthZeroList : List DiskEntry → Nat
  | [] => 0
  | c :: cs => countDepthZero c + countDepthZeroList cs
end

mutual
/-- Checks that, everywhere in the tree, each child's `depth` field equals its
parent's `depth` field plus one. -/
def depthParentOk : DiskEntry → Bool
  | .mk _ _ _ d cs => depthChildrenOk (d + 1) cs

/-- Checks that every tree in the list has root `depth` field `d` and
satisfies `depthParentOk`. -/
def depthChildrenOk : Nat → List DiskEntry → Bool
  | _, [] => true
  | d, c :: cs => (decide (c.depth = d)) && depthParentOk c && depthChildrenOk d cs
end

mutual
/-- Checks that no node at structural depth `≥ d` (distance from this root in
traversal steps, per the spec's glossary) has a nonempty children list. -/
def noChildrenAtOrBeyond : Nat → DiskEntry → Bool
  | 0, .mk _ _ _ _ cs => cs.isEmpty
  | d + 1, .mk _ _ _ _ cs => noChildrenListAtOrBeyond d cs

/-- List form of `noChildrenAtOrBeyond`. -/
def noChildrenListAtOrBeyond : Nat → List DiskEntry → Bool
  | _, [] => true
  | d, c :: cs => noChildrenAtOrBeyond d c && noChildrenListAtOrBeyond d cs
end

mutual
/-- Checks that no node of the tree has the given path. -/
def pathAbsent : List String → DiskEntry → Bool
  | q, .mk p _ _ _ cs => (decide (p ≠ q)) && pathAbsentList q cs

/-- List form of `pathAbsent`. -/
def pathAbsentList : List String → List DiskEntry → Bool
  | _, [] => true
  | q, c :: cs => pathAbsent q c && pathAbsentList q cs
end

/-- Adjacent-pairs check that a children list is ordered by non-increasing
`total_size`. -/
def chainDescBySize : List DiskEntry → Bool
  | [] => true
  | [_] => true
  | a :: b :: rest => (decide (b.total_size ≤ a.total_size)) && chainDescBySize (b :: rest)

mutual
/-- Checks that at every node of the tree the children are ordered by
non-increasing `total_size`. -/
def allSortedDesc : DiskEntry → Bool
  | .mk _ _ _ _ cs => chainDescBySize cs && allSortedDescList cs

/-- List form of `allSortedDesc`. -/
def allSortedDescList : List DiskEntry → Bool
  | [] => true
  | c :: cs => allSortedDesc c && allSortedDescList cs
end

/-- Structural induction principle for `DiskEntry` giving the inductive
hypothesis for every member of the children list. -/
theorem DiskEntry.ind (P : DiskEntry → Prop)
    (h : ∀ p s t d cs, (∀ c ∈ cs, P c) → P (DiskEntry.mk p s t d cs)) :
    ∀ e, P e
  | .mk p s t d cs => h p s t d cs (fun c hc => DiskEntry.ind P h c)
termination_by e => sizeOf e
decreasing_by
  have := List.sizeOf_lt_of_mem hc
  simp only [DiskEntry.mk.sizeOf_spec]
  omega

/-- Model of `DuskError` (error.rs): the error type of the engine.  The
`io::Error` payload of `IoError` is modelled by its message. -/
inductive DuskError where
  | PathNotFound (path : List String)
  | PermissionDenied (path : List String)
  | IoError (msg : String)
  | TraversalError (msg : String)
deriving DecidableEq, Repr

/-- Model of `FlatEntry` (traversal.rs:88-93): the flat intermediate record
produced by metadata collection and consumed by `build_tree`. -/
structure FlatEntry where
  path : List String
  size : Nat
  entry_type : EntryType
  depth : Nat
deriving DecidableEq, Repr

/-- Model of `Path::parent` on component lists: drop the last component;
the empty path has no parent. -/
def parentPath : List String → Option (List String)
  | [] => Option.none
  | l => some l.dropLast

/-- Model of `HashMap<PathBuf, Vec<DiskEntry>>` as an association list with
unique keys. -/
abbrev ChildMap := List (List String × List DiskEntry)

/-- Value lookup in the children map (the value part of `HashMap::remove`). -/
def lookupChildren : ChildMap → List String → List DiskEntry
  | [], _ => []
  | (k, v) :: rest, key => if k = key then v else lookupChildren rest key

/-- Key removal in the children map (the map part of `HashMap::remove`). -/
def eraseKey : ChildMap → List String → ChildMap
  | [], _ => []
  | (k, v) :: rest, key =>
    if k = key then eraseKey rest key else (k, v) :: eraseKey rest key

/-- Model of `children_map.entry(parent).or_default().push(disk_entry)`
(traversal.rs:212-215): append to the vector at `key`, inserting an empty
vector first when the key is absent. -/
def pushChild : ChildMap → List String → DiskEntry → ChildMap
  | [], key, v => [(key, [v])]
  | (k, w) :: rest, key, v =>
    if k = key then (k, w ++ [v]) :: rest else (k, w) :: pushChild rest key v

/-- One iteration of the `for entry in sorted` loop of `build_tree`
(traversal.rs:194-217): take this path's pending children out of the map,
build the node, then record it as the root (depth 0) or push it into its
parent's pending-children vector; entries of positive depth whose path has no
parent are dropped. -/
def buildStep (st : ChildMap × Option DiskEntry) (entry : FlatEntry) :
    ChildMap × Option DiskEntry :=
  let children := lookupChildren st.1 entry.path
  let m := eraseKey st.1 entry.path
  let disk_entry := DiskEntry.mk entry.path entry.size entry.entry_type entry.depth children
  if entry.depth = 0 then
    (m, some disk_entry)
  else
    match parentPath entry.path with
    | some parent => (pushChild m parent disk_entry, st.2)
    | Option.none => (m, st.2)

/-- The whole `for entry in sorted` loop of `build_tree`. -/
def buildLoop : (ChildMap × Option DiskEntry) → List FlatEntry → ChildMap × Option DiskEntry
  | st, [] => st
  | st, e :: rest => buildLoop (buildStep st e) rest

/-- Model of `build_tree` (traversal.rs:174-221): fail on an empty input,
sort by depth descending (stably), run the assembly loop, and fail when no
depth-0 root was captured. -/
def build_tree (flat_entries : List FlatEntry) : Except DuskError DiskEntry :=
  if flat_entries.isEmpty then
    Except.error (DuskError.TraversalError "no entries found during traversal")
  else
    let sorted := sortByLt (keyDescLt FlatEntry.depth) flat_entries
    match (buildLoop ([], Option.none) sorted).2 with
    | some root => Except.ok root
    | Option.none => Except.error (DuskError.TraversalError "no root entry found")

/-- Model of one successfully enumerated `walkdir::DirEntry` together with the
outcome of the `metadata()` call later performed on it: the path, the entry
kind derived from its file type (`dir_entry_to_entry_type`), the metadata
length when `metadata()` succeeds (`none` models a failed metadata read), and
the walk depth. -/
structure WalkEntry where
  path : List String
  ftype : EntryType
  metadataLen : Option Nat
  depth : Nat
deriving DecidableEq, Repr

/-- The `FlatEntry` produced from a walk entry: size is the metadata length,
defaulting to 0 when the metadata read failed (`metadata().map(len)
.unwrap_or(0)`, traversal.rs:293 and 430). -/
def flatOfWalkEntry (de : WalkEntry) : FlatEntry :=
  ⟨de.path, de.metadataLen.getD 0, de.ftype, de.depth⟩

/-- Model of `traverse` (traversal.rs:271-321).  The I/O boundary is passed
in explicitly: `canon` is the outcome of `path.canonicalize()` and `walk` the
list of walk results (`none` models an entry that failed to read and is
skipped by the `filter_map`).  After building the tree, an optional
`max_depth` is applied with `collapse_to_depth`. -/
def traverse (path : List String) (canon : Option (List String))
    (walk : List (Option WalkEntry)) (max_depth : Option Nat) :
    Except DuskError DiskEntry :=
  match canon with
  | Option.none => Except.error (DuskError.PathNotFound path)
  | some _ =>
    let flat_entries := walk.filterMap (fun r => r.map flatOfWalkEntry)
    match build_tree flat_entries with
    | Except.error e => Except.error e
    | Except.ok tree =>
      Except.ok (match max_depth with
        | some d => tree.collapse_to_depth d
        | Option.none => tree)

/-- Model of `traverse_parallel` (traversal.rs:390-453).  Phase 1 keeps the
successfully read walk entries (`filter_map(|r| r.ok())`); phase 2 maps them
to `FlatEntry` in parallel — rayon's indexed `par_iter().collect()` preserves
order, so it is modelled as a plain order-preserving map.  Thread-pool
construction is modelled as succeeding (its failure is environmental, not a
function of the inputs modelled here); the worker count does not influence the
collected list. -/
def traverse_parallel (path : List String) (canon : Option (List String))
    (walk : List (Option WalkEntry)) (max_depth : Option Nat)
    (num_threads : Option Nat) : Except DuskError DiskEntry :=
  match canon with
  | Option.none => Except.error (DuskError.PathNotFound path)
  | some _ =>
    let dir_entries := walk.filterMap id
    let flat_entries := dir_entries.map flatOfWalkEntry
    match build_tree flat_entries with
    | Except.error e => Except.error e
    | Except.ok tree =>
      Except.ok (match max_depth with
        | some d => tree.collapse_to_depth d
        | Option.none => tree)

/-- Unfolding lemma: `total_size` of a node is its own size plus the summed
total sizes of its children (the leaf test in the source is an optimization,
since the child sum of a leaf is `0`). -/
theorem total_size_mk (p : List String) (s : Nat) (t : EntryType) (d : Nat)
    (cs : List DiskEntry) :
    (DiskEntry.mk p s t d cs).total_size = s + totalSizeList cs := by
  cases cs with
  | nil => simp [DiskEntry.total_size, totalSizeList]
  | cons c cs => simp [DiskEntry.total_size]

/-- Collapsing every tree of a list preserves the summed total size. -/
theorem totalSizeList_collapseList (cs : List DiskEntry)
    (ih : ∀ x ∈ cs, ∀ c m, (x.collapse_recursive c m).total_size = x.total_size) :
    ∀ c m, totalSizeList (collapseList cs c m) = totalSizeList cs := by
  induction cs with
  | nil => intro c m; rfl
  | cons x xs IH =>
    intro c m
    simp only [collapseList, totalSizeList]
    rw [ih x (List.mem_cons_self x xs),
        IH (fun y hy c m => ih y (List.mem_cons_of_mem x hy) c m)]

/-- Collapsing preserves `total_size` at every node and every current depth. -/
theorem total_size_collapse_recursive (e : DiskEntry) :
    ∀ c m, (e.collapse_recursive c m).total_size = e.total_size := by
  induction e using DiskEntry.ind with
  | _ p s t d cs ih =>
    intro c m
    by_cases h : c ≥ m
    · simp only [DiskEntry.collapse_recursive, if_pos h]
      rw [total_size_mk]
      simp [totalSizeList, total_size_mk]
    · simp only [DiskEntry.collapse_recursive, if_neg h]
      rw [total_size_mk, total_size_mk,
          totalSizeList_collapseList cs (fun x hx c m => ih x hx c m)]

/-- C1: for every `DiskEntry` tree `t` and every max depth `d`, `total_size`
computed after `collapse_to_depth d` equals `total_size` computed before; the
same holds for `collapse_recursive` at every current depth, i.e. at every node
of the tree. -/
theorem collapse_preserves_total_size (t : DiskEntry) (d : Nat) :
    (t.collapse_to_depth d).total_size = t.total_size ∧
    ∀ c, (t.collapse_recursive c d).total_size = t.total_size :=
  ⟨total_size_collapse_recursive t 0 d, fun c => total_size_collapse_recursive t c d⟩

/-- C6: collapsing any tree to depth `0` yields a single childless node whose
own `size_bytes` equals the pre-collapse `total_size`. -/
theorem collapse_to_zero (t : DiskEntry) :
    (t.collapse_to_depth 0).children = [] ∧
    (t.collapse_to_depth 0).size_bytes = t.total_size ∧
    countNodes (t.collapse_to_depth 0) = 1 := by
  cases t with
  | mk p s ty d cs =>
    simp [DiskEntry.collapse_to_depth, DiskEntry.collapse_recursive,
      DiskEntry.children, DiskEntry.size_bytes, countNodes, countNodesList]

/-- Collapsing every tree of a list leaves no children at or beyond the
remaining depth budget. -/
theorem noChildrenList_collapseList (cs : List DiskEntry)
    (ih : ∀ x ∈ cs, ∀ c m, noChildrenAtOrBeyond (m - c) (x.collapse_recursive c m) = true) :
    ∀ c m, noChildrenListAtOrBeyond (m - c) (collapseList cs c m) = true := by
  induction cs with
  | nil => intro c m; rfl
  | cons x xs IH =>
    intro c m
    simp only [collapseList, noChildrenListAtOrBeyond, Bool.and_eq_true]
    exact ⟨ih x (List.mem_cons_self x xs) c m,
           IH (fun y hy => ih y (List.mem_cons_of_mem x hy)) c m⟩

/-- After `collapse_recursive` at current depth `c` with limit `m`, no node of
the result lies `m - c` or more structural levels below the root while keeping
a nonempty children list. -/
theorem noChildren_collapse_recursive (e : DiskEntry) :
    ∀ c m, noChildrenAtOrBeyond (m - c) (e.collapse_recursive c m) = true := by
  induction e using DiskEntry.ind with
  | _ p s t d cs ih =>
    intro c m
    by_cases h : c ≥ m
    · have hm : m - c = 0 := Nat.sub_eq_zero_of_le h
      simp only [DiskEntry.collapse_recursive, if_pos h, hm]
      rfl
    · have hm : m - c = (m - (c + 1)) + 1 := by omega
      simp only [DiskEntry.collapse_recursive, if_neg h, hm]
      simp only [noChildrenAtOrBeyond]
      exact noChildrenList_collapseList cs (fun x hx c m => ih x hx c m) (c + 1) m

/-- C5: after `collapse_to_depth d`, no node of the tree at structural depth
`≥ d` (distance from the root, per the spec's glossary) has a nonempty
children list. -/
theorem collapse_no_deep_children (t : DiskEntry) (d : Nat) :
    noChildrenAtOrBeyond d (t.collapse_to_depth d) = true := by
  have h := noChildren_collapse_recursive t 0 d
  simpa [DiskEntry.collapse_to_depth] using h

/-- C9: when canonicalization of the root path fails, both `traverse` and
`traverse_parallel` return `PathNotFound` for that path, whatever the walk
would have produced (the result does not depend on `walk`: enumeration is
never consulted). -/
theorem traverse_path_not_found (p : List String) (walk : List (Option WalkEntry))
    (max_depth : Option Nat) (num_threads : Option Nat) :
    traverse p Option.none walk max_depth
      = Except.error (DuskError.PathNotFound p) ∧
    traverse_parallel p Option.none walk max_depth num_threads
      = Except.error (DuskError.PathNotFound p) :=
  ⟨rfl, rfl⟩

/-- Skipping walk errors and then converting, versus keeping the successful
entries and then mapping, produce the same flat list. -/
theorem filterMap_flatOfWalkEntry (walk : List (Option WalkEntry)) :
    walk.filterMap (fun r => r.map flatOfWalkEntry)
      = (walk.filterMap id).map flatOfWalkEntry := by
  induction walk with
  | nil => rfl
  | cons x xs ih => cases x <;> simp [List.filterMap_cons, ih]

/-- The sequential and parallel traversals are the same function of the
canonicalization and walk outcomes. -/
theorem traverse_eq_traverse_parallel (p : List String) (canon : Option (List String))
    (walk : List (Option WalkEntry)) (max_depth : Option Nat) (num_threads : Option Nat) :
    traverse p canon walk max_depth
      = traverse_parallel p canon walk max_depth num_threads := by
  cases canon with
  | none => rfl
  | some c =>
    exact congrArg (fun fl =>
      match build_tree fl with
      | Except.error e => (Except.error e : Except DuskError DiskEntry)
      | Except.ok tree =>
        Except.ok (match max_depth with
          | some d => tree.collapse_to_depth d
          | Option.none => tree)) (filterMap_flatOfWalkEntry walk)

/-- C8: for identical canonicalization and walk outcomes (same filesystem
contents) and any worker count `≥ 1`, the trees returned by `traverse` and
`traverse_parallel` have equal root `total_size`. -/
theorem traverse_parallel_total_size_eq (p : List String) (canon : Option (List String))
    (walk : List (Option WalkEntry)) (max_depth : Option Nat) (n : Nat)
    (hn : 1 ≤ n) (t t' : DiskEntry)
    (h : traverse p canon walk max_depth = Except.ok t)
    (h' : traverse_parallel p canon walk max_depth (some n) = Except.ok t') :
    t.total_size = t'.total_size := by
  rw [traverse_eq_traverse_parallel p canon walk max_depth (some n)] at h
  rw [h] at h'
  injection h' with h''
  rw [h'']

/-- C8 witness: at a one-entry walk of a directory of metadata size 4096 and
worker count 1, both traversals return that single node, with equal total
size. -/
theorem traverse_parallel_total_size_eq_witness :
    (DiskEntry.mk ["r"] 4096 EntryType.directory 0 []).total_size
      = (DiskEntry.mk ["r"] 4096 EntryType.directory 0 []).total_size :=
  traverse_parallel_total_size_eq ["r"] (some ["r"])
    [some ⟨["r"], EntryType.directory, some 4096, 0⟩] Option.none 1
    (by decide) _ _ rfl rfl

/-- Membership in a stable insertion: the inserted element or an element of
the original list. -/
theorem mem_insertByLt {α : Type} (lt : α → α → Bool) (e y : α) (l : List α) :
    y ∈ insertByLt lt e l ↔ y = e ∨ y ∈ l := by
  induction l with
  | nil => simp [insertByLt]
  | cons x xs ih =>
    rw [insertByLt]
    split
    · simp only [List.mem_cons, ih]
      tauto
    · simp only [List.mem_cons]

/-- Stable insertion permutes consing. -/
theorem perm_insertByLt {α : Type} (lt : α → α → Bool) (e : α) (l : List α) :
    List.Perm (insertByLt lt e l) (e :: l) := by
  induction l with
  | nil => exact List.Perm.refl _
  | cons x xs ih =>
    rw [insertByLt]
    split
    · exact (List.Perm.cons x ih).trans (List.Perm.swap e x xs)
    · exact List.Perm.refl _

/-- The insertion sort permutes its input. -/
theorem perm_sortByLt {α : Type} (lt : α → α → Bool) (l : List α) :
    List.Perm (sortByLt lt l) l := by
  induction l with
  | nil => exact List.Perm.refl _
  | cons x xs ih =>
    rw [sortByLt]
    exact (perm_insertByLt lt x (sortByLt lt xs)).trans (List.Perm.cons x ih)

/-- Inserting with the descending-by-key comparator preserves the
pairwise-descending order. -/
theorem pairwise_insertByLt {α : Type} (key : α → Nat) (e : α) (l : List α)
    (h : List.Pairwise (fun a b => key b ≤ key a) l) :
    List.Pairwise (fun a b => key b ≤ key a) (insertByLt (keyDescLt key) e l) := by
  induction l with
  | nil => simp [insertByLt]
  | cons x xs ih =>
    rcases List.pairwise_cons.mp h with ⟨hx, hxs⟩
    rw [insertByLt]
    by_cases hlt : keyDescLt key x e = true
    · rw [if_pos hlt]
      refine List.pairwise_cons.mpr ⟨?_, ih hxs⟩
      intro y hy
      rcases (mem_insertByLt _ e y xs).mp hy with rfl | hy'
      · have he : key y < key x := of_decide_eq_true hlt
        omega
      · exact hx y hy'
    · rw [if_neg hlt]
      have hxe : key x ≤ key e := by
        have hne : ¬ (key e < key x) := by simpa [keyDescLt] using hlt
        omega
      refine List.pairwise_cons.mpr ⟨?_, h⟩
      intro y hy
      rcases List.mem_cons.mp hy with rfl | hy'
      · exact hxe
      · exact le_trans (hx y hy') hxe

/-- Sorting with the descending-by-key comparator yields a pairwise
descending list. -/
theorem pairwise_sortByLt {α : Type} (key : α → Nat) (l : List α) :
    List.Pairwise (fun a b => key b ≤ key a) (sortByLt (keyDescLt key) l) := by
  induction l with
  | nil => simp [sortByLt]
  | cons x xs ih =>
    rw [sortByLt]
    exact pairwise_insertByLt key x _ ih

/-- A pairwise size-descending children list passes the adjacent-pairs
check. -/
theorem chainDescBySize_of_pairwise (l : List DiskEntry)
    (h : List.Pairwise (fun a b => b.total_size ≤ a.total_size) l) :
    chainDescBySize l = true := by
  induction l with
  | nil => rfl
  | cons a l ih =>
    cases l with
    | nil => rfl
    | cons b rest =>
      rw [chainDescBySize]
      simp only [Bool.and_eq_true, decide_eq_true_eq]
      rcases List.pairwise_cons.mp h with ⟨ha, hrest⟩
      exact ⟨ha b (List.mem_cons_self b rest), ih hrest⟩

/-- A list check holds exactly when every member passes the node check. -/
theorem allSortedDescList_iff (l : List DiskEntry) :
    allSortedDescList l = true ↔ ∀ x ∈ l, allSortedDesc x = true := by
  induction l with
  | nil => simp [allSortedDescList]
  | cons c cs ih => simp [allSortedDescList, Bool.and_eq_true, ih]

/-- Every member of a recursively sorted children list is the recursive sort
of an original child. -/
theorem mem_sortChildren (cs : List DiskEntry) (ord : SortOrder) (x : DiskEntry) :
    x ∈ sortChildren cs ord → ∃ y ∈ cs, x = y.sort_entries ord := by
  induction cs with
  | nil => simp [sortChildren]
  | cons c cs ih =>
    rw [sortChildren]
    intro hx
    rcases List.mem_cons.mp hx with rfl | hx'
    · exact ⟨c, List.mem_cons_self c cs, rfl⟩
    · rcases ih hx' with ⟨y, hy, hxy⟩
      exact ⟨y, List.mem_cons_of_mem c hy, hxy⟩

/-- C7: after `sort_entries SizeDescending`, at every node of the tree the
children are in non-increasing `total_size` order. -/
theorem sort_entries_desc_sorted (t : DiskEntry) :
    allSortedDesc (t.sort_entries SortOrder.sizeDescending) = true := by
  induction t using DiskEntry.ind with
  | _ p s ty d cs ih =>
    show allSortedDesc (DiskEntry.mk p s ty d
      (sortByLt (keyDescLt DiskEntry.total_size) (sortChildren cs SortOrder.sizeDescending))) = true
    rw [allSortedDesc]
    simp only [Bool.and_eq_true]
    constructor
    · exact chainDescBySize_of_pairwise _ (pairwise_sortByLt DiskEntry.total_size _)
    · rw [allSortedDescList_iff]
      intro x hx
      have hx' : x ∈ sortChildren cs SortOrder.sizeDescending :=
        (perm_sortByLt (keyDescLt DiskEntry.total_size)
          (sortChildren cs SortOrder.sizeDescending)).mem_iff.mp hx
      obtain ⟨y, hy, rfl⟩ := mem_sortChildren cs SortOrder.sizeDescending x hx'
      exact ih y hy

/-- Whether a `build_tree` result is a success. -/
def isOkResult : Except DuskError DiskEntry → Bool
  | Except.ok _ => true
  | Except.error _ => false

/-- Insertion does not change `any`. -/
theorem any_insertByLt {α : Type} (lt : α → α → Bool) (p : α → Bool) (e : α)
    (l : List α) :
    (insertByLt lt e l).any p = (p e || l.any p) := by
  induction l with
  | nil => simp [insertByLt]
  | cons x xs ih =>
    rw [insertByLt]
    split
    · simp [List.any_cons, ih, Bool.or_left_comm]
    · simp [List.any_cons]

/-- Sorting does not change `any`. -/
theorem any_sortByLt {α : Type} (lt : α → α → Bool) (p : α → Bool) (l : List α) :
    (sortByLt lt l).any p = l.any p := by
  induction l with
  | nil => rfl
  | cons x xs ih => rw [sortByLt, any_insertByLt, ih, List.any_cons]

/-- One assembly step sets the root exactly on a depth-0 entry and otherwise
keeps it. -/
theorem buildStep_root_isSome (st : ChildMap × Option DiskEntry) (e : FlatEntry) :
    (buildStep st e).2.isSome = (st.2.isSome || (e.depth == 0)) := by
  rw [buildStep]
  by_cases h : e.depth = 0
  · simp [h]
  · simp only [if_neg h]
    cases hp : parentPath e.path <;> simp [h, Nat.beq_eq_true_eq]

/-- The assembly loop captures a root exactly when the state already has one
or a depth-0 entry is processed. -/
theorem buildLoop_root_isSome (l : List FlatEntry) :
    ∀ st : ChildMap × Option DiskEntry,
      (buildLoop st l).2.isSome = (st.2.isSome || l.any (fun e => e.depth == 0)) := by
  induction l with
  | nil => intro st; simp [buildLoop]
  | cons e rest ih =>
    intro st
    rw [buildLoop, ih, buildStep_root_isSome]
    simp [List.any_cons, Bool.or_assoc]

/-- C2: `build_tree` succeeds exactly when the input has an entry of depth 0:
it returns `Ok` on every input containing a depth-0 entry, and fails with a
`TraversalError` when the input is empty or contains no depth-0 entry (the
former condition implies the latter). -/
theorem build_tree_root_spec (l : List FlatEntry) :
    ((∃ e ∈ l, e.depth = 0) → ∃ t, build_tree l = Except.ok t) ∧
    ((∀ e ∈ l, e.depth ≠ 0) → ∃ msg, build_tree l = Except.error (DuskError.TraversalError msg)) := by
  constructor
  · rintro ⟨e, he, hd⟩
    have hne : ¬ (l.isEmpty = true) := by
      cases l with
      | nil => exact absurd he (List.not_mem_nil e)
      | cons a as => simp
    have hsome : (buildLoop ([], Option.none)
        (sortByLt (keyDescLt FlatEntry.depth) l)).2.isSome = true := by
      rw [buildLoop_root_isSome, any_sortByLt]
      simp only [Option.isSome_none, Bool.false_or]
      rw [List.any_eq_true]
      exact ⟨e, he, by simpa using hd⟩
    obtain ⟨r, hr⟩ := Option.isSome_iff_exists.mp hsome
    refine ⟨r, ?_⟩
    simp only [build_tree, if_neg hne]
    rw [hr]
  · intro hall
    by_cases hemp : l.isEmpty = true
    · exact ⟨"no entries found during traversal", by simp only [build_tree, if_pos hemp]⟩
    · have hnone : (buildLoop ([], Option.none)
          (sortByLt (keyDescLt FlatEntry.depth) l)).2.isSome = false := by
        rw [buildLoop_root_isSome, any_sortByLt]
        simp only [Option.isSome_none, Bool.false_or]
        rw [List.any_eq_false]
        intro e he
        simpa using hall e he
      cases hopt : (buildLoop ([], Option.none)
          (sortByLt (keyDescLt FlatEntry.depth) l)).2 with
      | some r => rw [hopt] at hnone; simp at hnone
      | none =>
        refine ⟨"no root entry found", ?_⟩
        simp only [build_tree, if_neg hemp]
        rw [hopt]

/-- C2 witness: a single depth-0 record builds successfully and the empty
list fails. -/
theorem build_tree_root_spec_witness :
    isOkResult (build_tree [(⟨["r"], 4096, EntryType.directory, 0⟩ : FlatEntry)]) = true ∧
    isOkResult (build_tree ([] : List FlatEntry)) = false := by
  constructor
  · obtain ⟨t, ht⟩ := (build_tree_root_spec [⟨["r"], 4096, EntryType.directory, 0⟩]).1
      ⟨⟨["r"], 4096, EntryType.directory, 0⟩, List.mem_cons_self _ _, rfl⟩
    rw [ht]; rfl
  · obtain ⟨msg, hmsg⟩ := (build_tree_root_spec ([] : List FlatEntry)).2
      (fun e he => absurd he (List.not_mem_nil e))
    rw [hmsg]; rfl

/-- Node count of the concatenation of two children lists. -/
theorem countNodesList_append (a b : List DiskEntry) :
    countNodesList (a ++ b) = countNodesList a + countNodesList b := by
  induction a with
  | nil => simp [countNodesList]
  | cons c cs ih => simp [countNodesList, ih, Nat.add_assoc]

/-- Erasing a key keeps only pairs of the map with a different key. -/
theorem mem_eraseKey (m : ChildMap) (k : List String)
    (pv : List String × List DiskEntry) (h : pv ∈ eraseKey m k) :
    pv ∈ m ∧ pv.1 ≠ k := by
  induction m with
  | nil => exact absurd h (List.not_mem_nil pv)
  | cons kv rest ih =>
    rw [eraseKey] at h
    by_cases hk : kv.1 = k
    · rw [if_pos hk] at h
      exact ⟨List.mem_cons_of_mem kv (ih h).1, (ih h).2⟩
    · rw [if_neg hk] at h
      rcases List.mem_cons.mp h with rfl | h'
      · exact ⟨List.mem_cons_self _ _, hk⟩
      · exact ⟨List.mem_cons_of_mem kv (ih h').1, (ih h').2⟩

/-- A pair of the pushed map is an old pair or carries the pushed key. -/
theorem mem_pushChild (m : ChildMap) (k : List String) (v : DiskEntry)
    (pv : List String × List DiskEntry) (h : pv ∈ pushChild m k v) :
    pv ∈ m ∨ pv.1 = k := by
  induction m with
  | nil =>
    rw [pushChild] at h
    rcases List.mem_cons.mp h with rfl | h'
    · exact Or.inr rfl
    · exact absurd h' (List.not_mem_nil pv)
  | cons kv rest ih =>
    rw [pushChild] at h
    by_cases hk : kv.1 = k
    · rw [if_pos hk] at h
      rcases List.mem_cons.mp h with rfl | h'
      · exact Or.inr hk
      · exact Or.inl (List.mem_cons_of_mem kv h')
    · rw [if_neg hk] at h
      rcases List.mem_cons.mp h with rfl | h'
      · exact Or.inl (List.mem_cons_self _ _)
      · rcases ih h' with h'' | h''
        · exact Or.inl (List.mem_cons_of_mem kv h'')
        · exact Or.inr h''

/-- A tree stored in the map sits in the vector of some pair with its key. -/
theorem mem_lookupChildren (m : ChildMap) (k : List String) (v : DiskEntry)
    (h : v ∈ lookupChildren m k) :
    ∃ pv ∈ m, pv.1 = k ∧ v ∈ pv.2 := by
  induction m with
  | nil => exact absurd h (List.not_mem_nil v)
  | cons kv rest ih =>
    rw [lookupChildren] at h
    by_cases hk : kv.1 = k
    · rw [if_pos hk] at h
      exact ⟨kv, List.mem_cons_self kv rest, hk, h⟩
    · rw [if_neg hk] at h
      rcases ih h with ⟨pv, hpv, hpk, hv⟩
      exact ⟨pv, List.mem_cons_of_mem kv hpv, hpk, hv⟩

/-- In the pushed map, a stored tree is an old tree at the same position or
the pushed tree at the pushed key. -/
theorem mem_pushChild_val (m : ChildMap) (k : List String) (v : DiskEntry)
    (pv : List String × List DiskEntry) (h : pv ∈ pushChild m k v)
    (w : DiskEntry) (hw : w ∈ pv.2) :
    (pv ∈ m ∧ w ∈ pv.2) ∨ (pv.1 = k ∧ (w ∈ lookupChildren m k ∨ w = v)) := by
  induction m with
  | nil =>
    rw [pushChild] at h
    rcases List.mem_cons.mp h with rfl | h'
    · refine Or.inr ⟨rfl, ?_⟩
      rcases List.mem_cons.mp hw with rfl | h''
      · exact Or.inr rfl
      · exact absurd h'' (List.not_mem_nil w)
    · exact absurd h' (List.not_mem_nil pv)
  | cons kv rest ih =>
    rw [pushChild] at h
    by_cases hk : kv.1 = k
    · rw [if_pos hk] at h
      rcases List.mem_cons.mp h with rfl | h'
      · refine Or.inr ⟨hk, ?_⟩
        rcases List.mem_append.mp hw with h'' | h''
        · rw [lookupChildren, if_pos hk]
          exact Or.inl h''
        · rcases List.mem_cons.mp h'' with rfl | h3
          · exact Or.inr rfl
          · exact absurd h3 (List.not_mem_nil w)
      · exact Or.inl ⟨List.mem_cons_of_mem kv h', hw⟩
    · rw [if_neg hk] at h
      rcases List.mem_cons.mp h with rfl | h'
      · exact Or.inl ⟨List.mem_cons_self _ _, hw⟩
      · rcases ih h' with ⟨h1, h2⟩ | ⟨h1, h2⟩
        · exact Or.inl ⟨List.mem_cons_of_mem kv h1, h2⟩
        · refine Or.inr ⟨h1, ?_⟩
          rw [lookupChildren, if_neg hk]
          exact h2

/-- Total node mass stored in the map's vectors. -/
def mapMass : ChildMap → Nat
  | [] => 0
  | (_, vs) :: rest => countNodesList vs + mapMass rest

/-- Node mass of the captured root, if any. -/
def rootMass : Option DiskEntry → Nat
  | Option.none => 0
  | some r => countNodes r

/-- Total node mass of an assembly state. -/
def stateMass (st : ChildMap × Option DiskEntry) : Nat :=
  mapMass st.1 + rootMass st.2

/-- Erasing an absent key is the identity. -/
theorem eraseKey_of_not_mem (m : ChildMap) (k : List String)
    (h : k ∉ m.map Prod.fst) : eraseKey m k = m := by
  induction m with
  | nil => rfl
  | cons kv rest ih =>
    rw [List.map_cons] at h
    rw [eraseKey, if_neg (fun hk => h (by rw [hk]; exact List.mem_cons_self k _)),
        ih (fun hk => h (List.mem_cons_of_mem kv.1 hk))]

/-- With unique keys, removal splits the map mass into the looked-up vector
and the remaining mass. -/
theorem mapMass_remove (m : ChildMap) (k : List String)
    (h : (m.map Prod.fst).Nodup) :
    mapMass m = countNodesList (lookupChildren m k) + mapMass (eraseKey m k) := by
  induction m with
  | nil => rfl
  | cons kv rest ih =>
    rw [List.map_cons, List.nodup_cons] at h
    obtain ⟨hk0, hrest⟩ := h
    by_cases hk : kv.1 = k
    · cases kv with
      | mk k0 vs =>
        simp only at hk
        rw [lookupChildren, if_pos hk, eraseKey, if_pos hk,
            eraseKey_of_not_mem rest k (by rw [← hk]; exact hk0)]
        rfl
    · cases kv with
      | mk k0 vs =>
        simp only at hk
        rw [lookupChildren, if_neg hk, eraseKey, if_neg hk]
        show countNodesList vs + mapMass rest
          = countNodesList (lookupChildren rest k) + (countNodesList vs + mapMass (eraseKey rest k))
        rw [ih hrest]
        omega

/-- Pushing a tree adds exactly its node count to the map mass. -/
theorem mapMass_pushChild (m : ChildMap) (k : List String) (v : DiskEntry) :
    mapMass (pushChild m k v) = mapMass m + countNodes v := by
  induction m with
  | nil => simp [pushChild, mapMass, countNodesList]
  | cons kv rest ih =>
    cases kv with
    | mk k0 vs =>
      rw [pushChild]
      by_cases hk : k0 = k
      · rw [if_pos hk]
        show countNodesList (vs ++ [v]) + mapMass rest = countNodesList vs + mapMass rest + countNodes v
        rw [countNodesList_append]
        simp [countNodesList]
        omega
      · rw [if_neg hk]
        show countNodesList vs + mapMass (pushChild rest k v) = countNodesList vs + mapMass rest + countNodes v
        rw [ih]
        omega

/-- The erased map's keys form a sublist of the original keys. -/
theorem keys_eraseKey_sublist (m : ChildMap) (k : List String) :
    ((eraseKey m k).map Prod.fst).Sublist (m.map Prod.fst) := by
  induction m with
  | nil => exact List.Sublist.refl _
  | cons kv rest ih =>
    rw [eraseKey]
    by_cases hk : kv.1 = k
    · rw [if_pos hk]
      exact ih.trans (List.sublist_cons_self kv.1 _)
    · rw [if_neg hk]
      rw [List.map_cons, List.map_cons]
      exact List.Sublist.cons₂ kv.1 ih

/-- Key uniqueness survives erasure. -/
theorem nodup_keys_eraseKey (m : ChildMap) (k : List String)
    (h : (m.map Prod.fst).Nodup) : ((eraseKey m k).map Prod.fst).Nodup :=
  h.sublist (keys_eraseKey_sublist m k)

/-- A key of the pushed map is an old key or the pushed key. -/
theorem mem_keys_pushChild (m : ChildMap) (k : List String) (v : DiskEntry)
    (x : List String) (h : x ∈ (pushChild m k v).map Prod.fst) :
    x ∈ m.map Prod.fst ∨ x = k := by
  rcases List.mem_map.mp h with ⟨pv, hpv, hx⟩
  rcases mem_pushChild m k v pv hpv with h' | h'
  · exact Or.inl (hx ▸ List.mem_map_of_mem Prod.fst h')
  · exact Or.inr (hx ▸ h' ▸ rfl)

/-- Key uniqueness survives pushing. -/
theorem nodup_keys_pushChild (m : ChildMap) (k : List String) (v : DiskEntry)
    (h : (m.map Prod.fst).Nodup) : ((pushChild m k v).map Prod.fst).Nodup := by
  induction m with
  | nil => simp [pushChild]
  | cons kv rest ih =>
    rw [List.map_cons, List.nodup_cons] at h
    obtain ⟨hk0, hrest⟩ := h
    rw [pushChild]
    by_cases hk : kv.1 = k
    · rw [if_pos hk]
      cases kv with
      | mk k0 vs =>
        rw [List.map_cons, List.nodup_cons]
        exact ⟨hk0, hrest⟩
    · rw [if_neg hk]
      rw [List.map_cons, List.nodup_cons]
      refine ⟨?_, ih hrest⟩
      intro hmem
      rcases mem_keys_pushChild rest k v kv.1 hmem with h' | h'
      · exact hk0 h'
      · exact hk h'

/-- Numeric flag for a captured root. -/
def rootFlag : Option DiskEntry → Nat
  | Option.none => 0
  | some _ => 1

/-- The root component of one assembly step. -/
theorem buildStep_root (st : ChildMap × Option DiskEntry) (e : FlatEntry) :
    (buildStep st e).2 = if e.depth = 0 then
      some (DiskEntry.mk e.path e.size e.entry_type e.depth (lookupChildren st.1 e.path))
    else st.2 := by
  simp only [buildStep]
  by_cases hd : e.depth = 0
  · rw [if_pos hd, if_pos hd]
  · rw [if_neg hd, if_neg hd]
    cases hpp : parentPath e.path <;> rfl

/-- Key uniqueness survives one assembly step. -/
theorem buildStep_keys_nodup (st : ChildMap × Option DiskEntry) (e : FlatEntry)
    (h : (st.1.map Prod.fst).Nodup) :
    (((buildStep st e).1).map Prod.fst).Nodup := by
  simp only [buildStep]
  by_cases hd : e.depth = 0
  · rw [if_pos hd]
    exact nodup_keys_eraseKey st.1 e.path h
  · rw [if_neg hd]
    cases hpp : parentPath e.path with
    | none => exact nodup_keys_eraseKey st.1 e.path h
    | some p => exact nodup_keys_pushChild _ p _ (nodup_keys_eraseKey st.1 e.path h)

/-- With unique keys, no pending root overwrite and no parentless positive-
depth entry, one assembly step adds exactly one node of mass. -/
theorem buildStep_mass (st : ChildMap × Option DiskEntry) (e : FlatEntry)
    (h : (st.1.map Prod.fst).Nodup)
    (h0 : e.depth = 0 → st.2 = Option.none)
    (hp : e.depth ≠ 0 → parentPath e.path ≠ Option.none) :
    stateMass (buildStep st e) = stateMass st + 1 := by
  have hmass := mapMass_remove st.1 e.path h
  simp only [buildStep]
  by_cases hd : e.depth = 0
  · rw [if_pos hd]
    simp only [stateMass, h0 hd, rootMass, countNodes]
    omega
  · rw [if_neg hd]
    cases hpp : parentPath e.path with
    | none => exact absurd hpp (hp hd)
    | some p =>
      simp only [stateMass, mapMass_pushChild, countNodes]
      omega

/-- Loop-level mass invariant: with unique keys, at most one root among the
pending entries and the captured state, and no parentless positive-depth
entry, the assembly loop adds exactly one node of mass per entry. -/
theorem buildLoop_mass (l : List FlatEntry) :
    ∀ st : ChildMap × Option DiskEntry,
      (st.1.map Prod.fst).Nodup →
      l.countP (fun e => e.depth == 0) + rootFlag st.2 ≤ 1 →
      (∀ e ∈ l, e.depth ≠ 0 → parentPath e.path ≠ Option.none) →
      stateMass (buildLoop st l) = stateMass st + l.length := by
  induction l with
  | nil =>
    intro st _ _ _
    simp [buildLoop]
  | cons e rest ih =>
    intro st hnd hroot hp
    rw [List.countP_cons] at hroot
    have h0 : e.depth = 0 → st.2 = Option.none := by
      intro hd
      cases hst : st.2 with
      | none => rfl
      | some r =>
        rw [hst] at hroot
        simp only [rootFlag] at hroot
        simp [hd] at hroot
    have hstep := buildStep_mass st e hnd h0
      (fun hd => hp e (List.mem_cons_self _ _) hd)
    have hnd' := buildStep_keys_nodup st e hnd
    have hroot' : rest.countP (fun e => e.depth == 0) + rootFlag (buildStep st e).2 ≤ 1 := by
      rw [buildStep_root]
      by_cases hd : e.depth = 0
      · rw [if_pos hd]
        simp [hd] at hroot
        simp only [rootFlag]
        omega
      · rw [if_neg hd]
        simp [hd] at hroot
        omega
    rw [buildLoop, ih (buildStep st e) hnd' hroot'
      (fun f hf => hp f (List.mem_cons_of_mem e hf)), hstep]
    rw [List.length_cons]
    omega

/-- Loop-level drainage invariant: if the pending entries are sorted by
non-increasing depth, every positive-depth pending entry has a pending parent
of strictly smaller depth, and every key of the current map is the path of
some pending entry, then the final map is empty. -/
theorem buildLoop_map_empty (l : List FlatEntry) :
    ∀ st : ChildMap × Option DiskEntry,
      List.Pairwise (fun a b : FlatEntry => b.depth ≤ a.depth) l →
      (∀ e ∈ l, e.depth ≠ 0 → ∃ f ∈ l, parentPath e.path = some f.path ∧ f.depth < e.depth) →
      (∀ pv ∈ st.1, ∃ f ∈ l, f.path = pv.1) →
      (buildLoop st l).1 = [] := by
  induction l with
  | nil =>
    intro st _ _ hkeys
    cases hst : st.1 with
    | nil => rw [buildLoop, hst]
    | cons pv rest =>
      obtain ⟨f, hf, _⟩ := hkeys pv (by rw [hst]; exact List.mem_cons_self _ _)
      exact absurd hf (List.not_mem_nil f)
  | cons e rest ih =>
    intro st hsorted hparent hkeys
    rcases List.pairwise_cons.mp hsorted with ⟨hge, hrest_pw⟩
    have hparent' : ∀ e' ∈ rest, e'.depth ≠ 0 →
        ∃ f ∈ rest, parentPath e'.path = some f.path ∧ f.depth < e'.depth := by
      intro e' he' hd'
      obtain ⟨f, hf, hpp, hfd⟩ := hparent e' (List.mem_cons_of_mem e he') hd'
      rcases List.mem_cons.mp hf with rfl | hf'
      · have := hge e' he'
        omega
      · exact ⟨f, hf', hpp, hfd⟩
    have hkeys' : ∀ pv ∈ (buildStep st e).1, ∃ f ∈ rest, f.path = pv.1 := by
      intro pv hpv
      have hof_erase : ∀ pv' : List String × List DiskEntry,
          pv' ∈ eraseKey st.1 e.path → ∃ f ∈ rest, f.path = pv'.1 := by
        intro pv' hpv'
        obtain ⟨hmem, hne⟩ := mem_eraseKey st.1 e.path pv' hpv'
        obtain ⟨f, hf, hfp⟩ := hkeys pv' hmem
        rcases List.mem_cons.mp hf with rfl | hf'
        · exact absurd hfp.symm hne
        · exact ⟨f, hf', hfp⟩
      simp only [buildStep] at hpv
      by_cases hd : e.depth = 0
      · rw [if_pos hd] at hpv
        exact hof_erase pv hpv
      · rw [if_neg hd] at hpv
        cases hpp : parentPath e.path with
        | none =>
          rw [hpp] at hpv
          exact hof_erase pv hpv
        | some p =>
          rw [hpp] at hpv
          rcases mem_pushChild _ p _ pv hpv with h' | h'
          · exact hof_erase pv h'
          · obtain ⟨f, hf, hfpp, hfd⟩ := hparent e (List.mem_cons_self _ _) hd
            rcases List.mem_cons.mp hf with rfl | hf'
            · omega
            · rw [hpp] at hfpp
              exact ⟨f, hf', by rw [h']; exact (Option.some.injEq _ _).mp hfpp.symm⟩
    rw [buildLoop]
    exact ih (buildStep st e) hrest_pw hparent' hkeys'

/-- C3 (amended): for every input list with exactly one depth-0 record in
which every positive-depth record's path has a parent that is the path of
some record of strictly smaller depth, `build_tree` succeeds and the node
count of the returned tree equals the number of input records.  (The original
claim, without the parent condition, is refuted by
`build_tree_node_count_cex`: orphaned records are silently dropped.) -/
theorem build_tree_node_count (l : List FlatEntry)
    (hroot : l.countP (fun e => e.depth == 0) = 1)
    (hparent : ∀ e ∈ l, e.depth ≠ 0 →
      ∃ f ∈ l, parentPath e.path = some f.path ∧ f.depth < e.depth) :
    ∃ t, build_tree l = Except.ok t ∧ countNodes t = l.length := by
  have hperm : List.Perm (sortByLt (keyDescLt FlatEntry.depth) l) l :=
    perm_sortByLt _ l
  have hex : ∃ e ∈ l, e.depth = 0 := by
    have hpos : 0 < l.countP (fun e => e.depth == 0) := by omega
    obtain ⟨e, he, hpe⟩ := List.countP_pos_iff.mp hpos
    exact ⟨e, he, by simpa using hpe⟩
  obtain ⟨e0, he0, hd0⟩ := hex
  have hne : ¬ (l.isEmpty = true) := by
    cases l with
    | nil => exact absurd he0 (List.not_mem_nil e0)
    | cons a as => simp
  have hsome : (buildLoop ([], Option.none)
      (sortByLt (keyDescLt FlatEntry.depth) l)).2.isSome = true := by
    rw [buildLoop_root_isSome, any_sortByLt]
    simp only [Option.isSome_none, Bool.false_or]
    rw [List.any_eq_true]
    exact ⟨e0, he0, by simpa using hd0⟩
  obtain ⟨r, hr⟩ := Option.isSome_iff_exists.mp hsome
  have hmass : stateMass (buildLoop ([], Option.none)
      (sortByLt (keyDescLt FlatEntry.depth) l))
      = stateMass ([], Option.none) + (sortByLt (keyDescLt FlatEntry.depth) l).length := by
    apply buildLoop_mass
    · simp
    · rw [hperm.countP_eq, hroot]
      simp [rootFlag]
    · intro e he hd
      obtain ⟨f, hf, hpp, _⟩ := hparent e (hperm.mem_iff.mp he) hd
      rw [hpp]
      exact Option.some_ne_none f.path
  have hempty : (buildLoop ([], Option.none)
      (sortByLt (keyDescLt FlatEntry.depth) l)).1 = [] := by
    apply buildLoop_map_empty
    · exact pairwise_sortByLt FlatEntry.depth l
    · intro e he hd
      obtain ⟨f, hf, hpp, hfd⟩ := hparent e (hperm.mem_iff.mp he) hd
      exact ⟨f, hperm.mem_iff.mpr hf, hpp, hfd⟩
    · intro pv hpv
      exact absurd hpv (List.not_mem_nil pv)
  refine ⟨r, ?_, ?_⟩
  · simp only [build_tree, if_neg hne]
    rw [hr]
  · have hfin : stateMass (buildLoop ([], Option.none)
        (sortByLt (keyDescLt FlatEntry.depth) l)) = countNodes r := by
      rw [stateMass, hempty, hr]
      simp [mapMass, rootMass]
    rw [hfin] at hmass
    rw [hmass]
    simp [stateMass, mapMass, rootMass, hperm.length_eq]

/-- C3 counterexample: on the two-record input whose second record is an
orphan (its parent path `["x"]` is no record's path), `build_tree` succeeds
but returns a one-node tree, so the node count (1) differs from the input
length (2). -/
theorem build_tree_node_count_cex :
    (build_tree [(⟨["r"], 4096, EntryType.directory, 0⟩ : FlatEntry),
        ⟨["x", "y"], 100, EntryType.file, 1⟩]).toOption.map countNodes = some 1 ∧
    ([(⟨["r"], 4096, EntryType.directory, 0⟩ : FlatEntry),
        ⟨["x", "y"], 100, EntryType.file, 1⟩] : List FlatEntry).length = 2 :=
  ⟨rfl, rfl⟩

/-- C3 witness: a root with one proper child builds into a two-node tree,
matching the input length. -/
theorem build_tree_node_count_witness :
    (build_tree [(⟨["r"], 4096, EntryType.directory, 0⟩ : FlatEntry),
        ⟨["r", "a"], 5, EntryType.file, 1⟩]).toOption.map countNodes = some 2 := by
  obtain ⟨t, ht, hc⟩ := build_tree_node_count
    [⟨["r"], 4096, EntryType.directory, 0⟩, ⟨["r", "a"], 5, EntryType.file, 1⟩]
    (by decide)
    (by decide)
  rw [ht]
  simp [Except.toOption, hc]

/-- Characterization of the per-level depth check. -/
theorem depthChildrenOk_iff (d : Nat) (cs : List DiskEntry) :
    depthChildrenOk d cs = true ↔ ∀ c ∈ cs, c.depth = d ∧ depthParentOk c = true := by
  induction cs with
  | nil => simp [depthChildrenOk]
  | cons c cs ih =>
    rw [depthChildrenOk]
    simp [Bool.and_eq_true, decide_eq_true_eq, ih, List.forall_mem_cons, and_assoc]

/-- A forest counts zero depth-0 nodes exactly when each tree does. -/
theorem countDepthZeroList_eq_zero (cs : List DiskEntry) :
    countDepthZeroList cs = 0 ↔ ∀ c ∈ cs, countDepthZero c = 0 := by
  induction cs with
  | nil => simp [countDepthZeroList]
  | cons c cs ih =>
    rw [countDepthZeroList]
    rw [Nat.add_eq_zero]
    simp [ih, List.forall_mem_cons]

/-- Invariant on the pending-children map: every stored tree is keyed by its
path's parent, is internally depth-consistent, contains no depth-0 node, and
records the path and depth of some input entry at its root. -/
def mapDepthInv (l0 : List FlatEntry) (m : ChildMap) : Prop :=
  ∀ pv ∈ m, ∀ v ∈ pv.2,
    parentPath v.path = some pv.1 ∧ depthParentOk v = true ∧
    countDepthZero v = 0 ∧ ∃ g ∈ l0, g.path = v.path ∧ g.depth = v.depth

/-- Invariant on the captured root: depth-consistent with exactly one depth-0
node. -/
def rootDepthInv (o : Option DiskEntry) : Prop :=
  ∀ r, o = some r → depthParentOk r = true ∧ countDepthZero r = 1

/-- One assembly step preserves the depth invariants when the input depths
are parent-consistent. -/
theorem buildStep_depth_invariant (l0 : List FlatEntry)
    (hdepth : ∀ e ∈ l0, ∀ f ∈ l0, parentPath e.path = some f.path → e.depth = f.depth + 1)
    (st : ChildMap × Option DiskEntry) (e : FlatEntry) (he : e ∈ l0)
    (hm : mapDepthInv l0 st.1) (hr : rootDepthInv st.2) :
    mapDepthInv l0 (buildStep st e).1 ∧ rootDepthInv (buildStep st e).2 := by
  have hchild : ∀ v ∈ lookupChildren st.1 e.path,
      v.depth = e.depth + 1 ∧ depthParentOk v = true ∧ countDepthZero v = 0 := by
    intro v hv
    obtain ⟨pv, hpv, hpk, hvin⟩ := mem_lookupChildren st.1 e.path v hv
    obtain ⟨hpp, hok, hcz, g, hg, hgp, hgd⟩ := hm pv hpv v hvin
    rw [hpk] at hpp
    have hgd' := hdepth g hg e he (by rw [hgp]; exact hpp)
    exact ⟨by omega, hok, hcz⟩
  have hnode_ok : depthParentOk
      (DiskEntry.mk e.path e.size e.entry_type e.depth (lookupChildren st.1 e.path)) = true := by
    rw [depthParentOk, depthChildrenOk_iff]
    intro c hc
    exact ⟨(hchild c hc).1, (hchild c hc).2.1⟩
  have hnode_cz : countDepthZero
      (DiskEntry.mk e.path e.size e.entry_type e.depth (lookupChildren st.1 e.path))
      = (if e.depth = 0 then 1 else 0) := by
    rw [countDepthZero]
    have hz : countDepthZeroList (lookupChildren st.1 e.path) = 0 :=
      (countDepthZeroList_eq_zero _).mpr (fun c hc => (hchild c hc).2.2)
    omega
  have herase : mapDepthInv l0 (eraseKey st.1 e.path) := by
    intro pv hpv v hv
    exact hm pv (mem_eraseKey st.1 e.path pv hpv).1 v hv
  simp only [buildStep]
  by_cases hd : e.depth = 0
  · rw [if_pos hd]
    refine ⟨herase, ?_⟩
    intro r hrr
    injection hrr with hrr
    subst hrr
    refine ⟨hnode_ok, ?_⟩
    rw [hnode_cz, if_pos hd]
  · rw [if_neg hd]
    cases hpp : parentPath e.path with
    | none => exact ⟨herase, hr⟩
    | some p =>
      refine ⟨?_, hr⟩
      intro pv hpv v hv
      rcases mem_pushChild_val _ p _ pv hpv v hv with ⟨h1, h2⟩ | ⟨h1, h2⟩
      · exact herase pv h1 v h2
      · rcases h2 with h2 | rfl
        · obtain ⟨pv', hpv', hpk', hv'⟩ := mem_lookupChildren _ p v h2
          obtain ⟨hpp', hok', hcz', hex'⟩ := herase pv' hpv' v hv'
          rw [hpk'] at hpp'
          rw [h1]
          exact ⟨hpp', hok', hcz', hex'⟩
        · rw [h1]
          refine ⟨hpp, hnode_ok, ?_, ⟨e, he, rfl, rfl⟩⟩
          rw [hnode_cz, if_neg hd]

/-- The assembly loop preserves the depth invariants when the input depths
are parent-consistent. -/
theorem buildLoop_depth_invariant (l0 : List FlatEntry)
    (hdepth : ∀ e ∈ l0, ∀ f ∈ l0, parentPath e.path = some f.path → e.depth = f.depth + 1) :
    ∀ l : List FlatEntry, (∀ e ∈ l, e ∈ l0) →
    ∀ st : ChildMap × Option DiskEntry,
      mapDepthInv l0 st.1 → rootDepthInv st.2 →
      mapDepthInv l0 (buildLoop st l).1 ∧ rootDepthInv (buildLoop st l).2 := by
  intro l
  induction l with
  | nil =>
    intro _ st hm hr
    exact ⟨hm, hr⟩
  | cons e rest ih =>
    intro hsub st hm hr
    rw [buildLoop]
    obtain ⟨hm', hr'⟩ := buildStep_depth_invariant l0 hdepth st e
      (hsub e (List.mem_cons_self _ _)) hm hr
    exact ih (fun f hf => hsub f (List.mem_cons_of_mem e hf)) (buildStep st e) hm' hr'

/-- Map invariant holding with no hypothesis on the input: no tree stored in
the pending-children map contains a depth-0 node (only positive-depth entries
are ever pushed). -/
def mapZeroInv (m : ChildMap) : Prop :=
  ∀ pv ∈ m, ∀ v ∈ pv.2, countDepthZero v = 0

/-- Root invariant holding with no hypothesis on the input: the captured root
contains exactly one depth-0 node (itself). -/
def rootZeroInv (o : Option DiskEntry) : Prop :=
  ∀ r, o = some r → countDepthZero r = 1

/-- One assembly step unconditionally preserves the depth-0 count
invariants. -/
theorem buildStep_zero_invariant (st : ChildMap × Option DiskEntry) (e : FlatEntry)
    (hm : mapZeroInv st.1) (hr : rootZeroInv st.2) :
    mapZeroInv (buildStep st e).1 ∧ rootZeroInv (buildStep st e).2 := by
  have hchild : ∀ v ∈ lookupChildren st.1 e.path, countDepthZero v = 0 := by
    intro v hv
    obtain ⟨pv, hpv, hpk, hvin⟩ := mem_lookupChildren st.1 e.path v hv
    exact hm pv hpv v hvin
  have hz : countDepthZeroList (lookupChildren st.1 e.path) = 0 :=
    (countDepthZeroList_eq_zero _).mpr hchild
  have hnode : countDepthZero (DiskEntry.mk e.path e.size e.entry_type e.depth
      (lookupChildren st.1 e.path)) = (if e.depth = 0 then 1 else 0) := by
    rw [countDepthZero]
    omega
  have herase : mapZeroInv (eraseKey st.1 e.path) := by
    intro pv hpv v hv
    exact hm pv (mem_eraseKey st.1 e.path pv hpv).1 v hv
  simp only [buildStep]
  by_cases hd : e.depth = 0
  · rw [if_pos hd]
    refine ⟨herase, ?_⟩
    intro r hrr
    injection hrr with hrr
    subst hrr
    rw [hnode, if_pos hd]
  · rw [if_neg hd]
    cases hpp : parentPath e.path with
    | none => exact ⟨herase, hr⟩
    | some p =>
      refine ⟨?_, hr⟩
      intro pv hpv v hv
      rcases mem_pushChild_val _ p _ pv hpv v hv with ⟨h1, h2⟩ | ⟨h1, h2⟩
      · exact herase pv h1 v h2
      · rcases h2 with h2 | rfl
        · obtain ⟨pv', hpv', hpk', hv'⟩ := mem_lookupChildren _ p v h2
          exact herase pv' hpv' v hv'
        · rw [hnode, if_neg hd]

/-- The assembly loop unconditionally preserves the depth-0 count
invariants. -/
theorem buildLoop_zero_invariant :
    ∀ l : List FlatEntry, ∀ st : ChildMap × Option DiskEntry,
      mapZeroInv st.1 → rootZeroInv st.2 →
      mapZeroInv (buildLoop st l).1 ∧ rootZeroInv (buildLoop st l).2 := by
  intro l
  induction l with
  | nil =>
    intro st hm hr
    exact ⟨hm, hr⟩
  | cons e rest ih =>
    intro st hm hr
    rw [buildLoop]
    obtain ⟨hm', hr'⟩ := buildStep_zero_invariant st e hm hr
    exact ih (buildStep st e) hm' hr'

/-- C4 (amended): every tree returned by `build_tree` has exactly one node of
depth 0 — the root — unconditionally; and provided the input depth fields are
parent-consistent (whenever one record's path is the parent of another's,
their depths differ by exactly one), every non-root node's depth field equals
its parent node's depth field plus 1.  (The original claim's second clause,
with no hypothesis on the input depths, is refuted by `build_tree_depth_cex`:
`build_tree` copies depth fields verbatim from the records.) -/
theorem build_tree_depth_invariant (l : List FlatEntry) :
    ∀ t, build_tree l = Except.ok t →
      countDepthZero t = 1 ∧
      ((∀ e ∈ l, ∀ f ∈ l, parentPath e.path = some f.path → e.depth = f.depth + 1) →
        depthParentOk t = true) := by
  intro t ht
  by_cases hemp : l.isEmpty = true
  · simp only [build_tree, if_pos hemp] at ht
    exact Except.noConfusion ht
  · simp only [build_tree, if_neg hemp] at ht
    cases hopt : (buildLoop ([], Option.none) (sortByLt (keyDescLt FlatEntry.depth) l)).2 with
    | none =>
      rw [hopt] at ht
      exact Except.noConfusion ht
    | some r =>
      rw [hopt] at ht
      injection ht with ht
      subst ht
      constructor
      · obtain ⟨_, hz⟩ := buildLoop_zero_invariant
          (sortByLt (keyDescLt FlatEntry.depth) l) ([], Option.none)
          (fun pv hpv => absurd hpv (List.not_mem_nil pv))
          (fun r' hr' => Option.noConfusion hr')
        exact hz r hopt
      · intro hdepth
        have hperm := perm_sortByLt (keyDescLt FlatEntry.depth) l
        obtain ⟨hm, hrt⟩ := buildLoop_depth_invariant l hdepth
          (sortByLt (keyDescLt FlatEntry.depth) l)
          (fun f hf => hperm.mem_iff.mp hf)
          ([], Option.none)
          (fun pv hpv => absurd hpv (List.not_mem_nil pv))
          (fun r' hr' => Option.noConfusion hr')
        exact (hrt r hopt).1

/-- C4 counterexample: with a depth-0 root and a child record carrying depth
field 5, `build_tree` succeeds and returns a tree in which the child's depth
(5) is not the root's depth plus one, falsifying the unconditional claim. -/
theorem build_tree_depth_cex :
    (build_tree [(⟨["r"], 0, EntryType.directory, 0⟩ : FlatEntry),
        ⟨["r", "a"], 5, EntryType.file, 5⟩]).toOption.map depthParentOk = some false :=
  rfl

/-- C4 witness: a parent-consistent two-record input yields a tree with one
depth-0 node and consistent child depths. -/
theorem build_tree_depth_invariant_witness :
    countDepthZero (DiskEntry.mk ["r"] 4096 EntryType.directory 0
      [DiskEntry.mk ["r", "a"] 5 EntryType.file 1 []]) = 1 ∧
    depthParentOk (DiskEntry.mk ["r"] 4096 EntryType.directory 0
      [DiskEntry.mk ["r", "a"] 5 EntryType.file 1 []]) = true := by
  obtain ⟨h1, h2⟩ := build_tree_depth_invariant
    [⟨["r"], 4096, EntryType.directory, 0⟩, ⟨["r", "a"], 5, EntryType.file, 1⟩]
    (DiskEntry.mk ["r"] 4096 EntryType.directory 0
      [DiskEntry.mk ["r", "a"] 5 EntryType.file 1 []]) rfl
  exact ⟨h1, h2 (by decide)⟩

/-- A forest avoids a path exactly when each tree does. -/
theorem pathAbsentList_iff (target : List String) (cs : List DiskEntry) :
    pathAbsentList target cs = true ↔ ∀ c ∈ cs, pathAbsent target c = true := by
  induction cs with
  | nil => simp [pathAbsentList]
  | cons c cs ih => simp [pathAbsentList, Bool.and_eq_true, ih, List.forall_mem_cons]

/-- A path is never its own parent. -/
theorem parentPath_ne (t q : List String) (h : parentPath t = some q) : q ≠ t := by
  cases t with
  | nil => exact Option.noConfusion h
  | cons a as =>
    simp only [parentPath] at h
    injection h with h
    intro hqt
    rw [hqt] at h
    have hlen := congrArg List.length h
    rw [List.length_dropLast] at hlen
    simp at hlen

/-- Map invariant for orphan absence: every tree stored under a key other
than the orphan's parent path contains no node with the orphan's path. -/
def cleanMap (target q : List String) (m : ChildMap) : Prop :=
  ∀ pv ∈ m, pv.1 ≠ q → ∀ v ∈ pv.2, pathAbsent target v = true

/-- Root invariant for orphan absence. -/
def cleanRoot (target : List String) (o : Option DiskEntry) : Prop :=
  ∀ r, o = some r → pathAbsent target r = true

/-- One assembly step preserves orphan absence, provided no processed entry
has the orphan's parent path as its own path and every entry carrying the
orphan's path has positive depth. -/
theorem buildStep_clean (target q : List String) (hq : parentPath target = some q)
    (st : ChildMap × Option DiskEntry) (e : FlatEntry)
    (heq : e.path ≠ q)
    (hdz : e.path = target → e.depth ≠ 0)
    (hm : cleanMap target q st.1) (hr : cleanRoot target st.2) :
    cleanMap target q (buildStep st e).1 ∧ cleanRoot target (buildStep st e).2 := by
  have hlook : ∀ k : List String, k ≠ q →
      ∀ v ∈ lookupChildren st.1 k, pathAbsent target v = true := by
    intro k hk v hv
    obtain ⟨pv, hpv, hpk, hvin⟩ := mem_lookupChildren st.1 k v hv
    exact hm pv hpv (by rw [hpk]; exact hk) v hvin
  have herase : cleanMap target q (eraseKey st.1 e.path) := by
    intro pv hpv hne v hv
    exact hm pv (mem_eraseKey st.1 e.path pv hpv).1 hne v hv
  by_cases hpt : e.path = target
  · have hd0 : ¬ e.depth = 0 := hdz hpt
    have hpp : parentPath e.path = some q := by rw [hpt]; exact hq
    simp only [buildStep]
    rw [if_neg hd0, hpp]
    refine ⟨?_, hr⟩
    intro pv hpv hne v hv
    rcases mem_pushChild_val _ q _ pv hpv v hv with ⟨h1, h2⟩ | ⟨h1, h2⟩
    · exact herase pv h1 hne v h2
    · exact absurd h1 hne
  · have hnode : pathAbsent target
        (DiskEntry.mk e.path e.size e.entry_type e.depth (lookupChildren st.1 e.path))
        = true := by
      rw [pathAbsent]
      simp only [Bool.and_eq_true, decide_eq_true_eq]
      refine ⟨hpt, ?_⟩
      rw [pathAbsentList_iff]
      intro c hc
      exact hlook e.path heq c hc
    simp only [buildStep]
    by_cases hd : e.depth = 0
    · rw [if_pos hd]
      refine ⟨herase, ?_⟩
      intro r hrr
      injection hrr with hrr
      subst hrr
      exact hnode
    · rw [if_neg hd]
      cases hpp : parentPath e.path with
      | none => exact ⟨herase, hr⟩
      | some p =>
        refine ⟨?_, hr⟩
        intro pv hpv hne v hv
        rcases mem_pushChild_val _ p _ pv hpv v hv with ⟨h1, h2⟩ | ⟨h1, h2⟩
        · exact herase pv h1 hne v h2
        · rcases h2 with h2 | rfl
          · obtain ⟨pv', hpv', hpk', hv'⟩ := mem_lookupChildren _ p v h2
            exact hm pv' (mem_eraseKey st.1 e.path pv' hpv').1
              (by rw [hpk', ← h1]; exact hne) v hv'
          · exact hnode

/-- The assembly loop preserves orphan absence. -/
theorem buildLoop_clean (target q : List String) (hq : parentPath target = some q) :
    ∀ l : List FlatEntry,
      (∀ g ∈ l, g.path ≠ q) →
      (∀ g ∈ l, g.path = target → g.depth ≠ 0) →
      ∀ st : ChildMap × Option DiskEntry,
        cleanMap target q st.1 → cleanRoot target st.2 →
        cleanMap target q (buildLoop st l).1 ∧ cleanRoot target (buildLoop st l).2 := by
  intro l
  induction l with
  | nil =>
    intro _ _ st hm hr
    exact ⟨hm, hr⟩
  | cons e rest ih =>
    intro hq' hdz st hm hr
    rw [buildLoop]
    obtain ⟨hm', hr'⟩ := buildStep_clean target q hq st e
      (hq' e (List.mem_cons_self _ _)) (hdz e (List.mem_cons_self _ _)) hm hr
    exact ih (fun g hg => hq' g (List.mem_cons_of_mem e hg))
      (fun g hg => hdz g (List.mem_cons_of_mem e hg)) (buildStep st e) hm' hr'

/-- C10: when the input contains a depth-0 record together with an orphaned
positive-depth record `e` — its path's parent `q` is not the path of any
input record, and no input record shares `e`'s path at depth 0 — `build_tree`
still succeeds, and the returned tree contains no node with the orphan's
path. -/
theorem build_tree_orphan (l : List FlatEntry) (e : FlatEntry) (q : List String)
    (hroot : ∃ r ∈ l, r.depth = 0)
    (he : e ∈ l) (hd : e.depth ≠ 0)
    (hq : parentPath e.path = some q)
    (horph : ∀ f ∈ l, f.path ≠ q)
    (hdup : ∀ f ∈ l, f.path = e.path → f.depth ≠ 0) :
    ∃ t, build_tree l = Except.ok t ∧ pathAbsent e.path t = true := by
  obtain ⟨r0, hr0, hd0⟩ := hroot
  have hne : ¬ (l.isEmpty = true) := by
    cases l with
    | nil => exact absurd hr0 (List.not_mem_nil r0)
    | cons a as => simp
  have hsome : (buildLoop ([], Option.none)
      (sortByLt (keyDescLt FlatEntry.depth) l)).2.isSome = true := by
    rw [buildLoop_root_isSome, any_sortByLt]
    simp only [Option.isSome_none, Bool.false_or]
    rw [List.any_eq_true]
    exact ⟨r0, hr0, by simpa using hd0⟩
  obtain ⟨r, hr⟩ := Option.isSome_iff_exists.mp hsome
  have hperm := perm_sortByLt (keyDescLt FlatEntry.depth) l
  obtain ⟨_, hcr⟩ := buildLoop_clean e.path q hq
    (sortByLt (keyDescLt FlatEntry.depth) l)
    (fun g hg => horph g (hperm.mem_iff.mp hg))
    (fun g hg => hdup g (hperm.mem_iff.mp hg))
    ([], Option.none)
    (fun pv hpv => absurd hpv (List.not_mem_nil pv))
    (fun r' hr' => Option.noConfusion hr')
  refine ⟨r, ?_, hcr r hr⟩
  simp only [build_tree, if_neg hne]
  rw [hr]

/-- C10 witness: with root `["r"]` and orphan `["x","y"]` (parent `["x"]`
absent from the input), `build_tree` succeeds and the orphan's path is absent
from the result. -/
theorem build_tree_orphan_witness :
    (build_tree [(⟨["r"], 1, EntryType.directory, 0⟩ : FlatEntry),
        ⟨["x", "y"], 7, EntryType.file, 1⟩]).toOption.map (pathAbsent ["x", "y"])
      = some true := by
  obtain ⟨t, ht, habs⟩ := build_tree_orphan
    [⟨["r"], 1, EntryType.directory, 0⟩, ⟨["x", "y"], 7, EntryType.file, 1⟩]
    ⟨["x", "y"], 7, EntryType.file, 1⟩ ["x"]
    ⟨⟨["r"], 1, EntryType.directory, 0⟩, List.mem_cons_self _ _, rfl⟩
    (by decide) (by decide) (by decide) (by decide) (by decide)
  rw [ht]
  simp [Except.toOption, habs]
